import Mathlib

/-!
Verification of the DMRG driver in src/Heis_FSA.cpp.

The claims under scrutiny concern the integer control flow of main:
the infinite-system growth loop (lines 128-231), the truncation state
machine driven by the counters st / truncflag / statesToKeepIFA, the
dimensions to which the blitz arrays are resized, the finite-system
sweep loop (lines 238-295), and the helper calculateMinEnviromentSize
(lines 36-42).  We therefore embed exactly that control skeleton: each
loop iteration is a total function on a state record that carries the
four integer counters, the current dimensions of the resized arrays,
and the observable traces (energy prints, truncation requests, block
store reads/writes, values assigned to truncflag).  The dense linear
algebra, the Lanczos solver and the on-disk block store are external
collaborators (spec section 6) whose numeric content none of the
claims mention, so only their dimension bookkeeping and the call
events appear in the state.

While loops are embedded as structurally recursive functions with an
explicit fuel argument that also checks the loop condition each step;
at every call site the fuel passed is a provable upper bound on the
number of iterations (the loop counter increases by one per iteration
towards a fixed bound), so the fuel never cuts a run short; lemmas
that need this are stated with an explicit fuel-adequacy hypothesis.
-/

namespace HeisFSA

/-- Block-store events of the run: ISAwrite (line 229), FSAread
(lines 244, 251, 292) and FSAwrite (line 288), with the size and
sweep-index arguments they are called with. -/
inductive Event where
  | isaW : ℕ → Event
  | fsaR : ℕ → ℕ → Event
  | fsaW : ℕ → ℕ → Event
  deriving DecidableEq

/-- The control state of main, plus observable traces.

Dimension fields record the square size of the corresponding blitz
arrays: dimHAB is blkS.HAB, dimI2st the identity I2st, dimSzAB the
operators SzAB/SpAB/SmAB (always resized together), dimSuper the
common size of Habcd, Psi and rhoTSR (always resized together,
lines 221-223).

Trace fields: prints are the infinite-phase printGroundStateEnergy
calls (pairs sitesInLeft, sitesInRight), printsFSA the finite-phase
ones, truncISA / truncFSA the truncateReducedDM calls as pairs
(states requested, dimension of the density matrix rhoTSR at the
call), tfTrace the sequence of values held by truncflag (initial
value followed by every value assigned to it), events the block-store
calls in program order, fsaInnerIters the number of iterations of the
finite-sweep inner while loop executed so far. -/
structure DState where
  st : ℕ
  truncflag : ℕ
  statesToKeepIFA : ℕ
  sitesInSystem : ℕ
  dimHAB : ℕ
  dimI2st : ℕ
  dimSzAB : ℕ
  dimSuper : ℕ
  prints : List (ℕ × ℕ)
  printsFSA : List (ℕ × ℕ)
  truncISA : List (ℕ × ℕ)
  truncFSA : List (ℕ × ℕ)
  tfTrace : List ℕ
  events : List Event
  fsaInnerIters : ℕ

/-- One iteration of the infinite-system while loop, lines 134-231 of
src/Heis_FSA.cpp, in statement order:
line 142 print (sitesInSystem, sitesInSystem);
line 145 statesToKeepIFA becomes 2*statesToKeepIFA if that is at most
m, else m;
lines 148-156 if 2*st is at most m then st doubles, otherwise
truncflag is incremented when it equals 0 or 3;
lines 159-163 truncateReducedDM is called with the updated
statesToKeepIFA on rhoTSR, whose dimension is dimSuper;
lines 178-183 if truncflag equals 1 it becomes 2 and st is pinned to m;
line 190 blkS.HAB is resized to 2*st;
lines 193-224 if truncflag is below 3: when it equals 2 it becomes 3
and I2st is resized to 2*m, otherwise I2st is resized to 4*st; the
operators SzAB/SpAB/SmAB are resized to 2*st and Habcd, Psi, rhoTSR
to 2*st; when truncflag is 3 or more none of these are resized;
lines 226-229 sitesInSystem increments and ISAwrite is called with it. -/
def stepISA (m : ℕ) (s : DState) : DState :=
  let prints := s.prints ++ [(s.sitesInSystem, s.sitesInSystem)]
  let statesToKeepIFA :=
    if 2 * s.statesToKeepIFA ≤ m then 2 * s.statesToKeepIFA else m
  let st1 := if 2 * s.st ≤ m then 2 * s.st else s.st
  let tf1 :=
    if 2 * s.st ≤ m then s.truncflag
    else if s.truncflag = 0 ∨ s.truncflag = 3 then s.truncflag + 1
    else s.truncflag
  let truncISA := s.truncISA ++ [(statesToKeepIFA, s.dimSuper)]
  let st2 := if tf1 < 2 then (if tf1 = 1 then m else st1) else st1
  let tf2 := if tf1 < 2 then (if tf1 = 1 then 2 else tf1) else tf1
  let tf3 := if tf2 < 3 then (if tf2 = 2 then 3 else tf2) else tf2
  let dimI2st :=
    if tf2 < 3 then (if tf2 = 2 then 2 * m else 4 * st2) else s.dimI2st
  let dimSzAB := if tf2 < 3 then 2 * st2 else s.dimSzAB
  let dimSuper := if tf2 < 3 then 2 * st2 else s.dimSuper
  let tfTrace := s.tfTrace
      ++ (if 2 * s.st ≤ m then []
          else if s.truncflag = 0 ∨ s.truncflag = 3 then [s.truncflag + 1]
          else [])
      ++ (if tf1 < 2 ∧ tf1 = 1 then [2] else [])
      ++ (if tf2 < 3 ∧ tf2 = 2 then [3] else [])
  { st := st2, truncflag := tf3, statesToKeepIFA := statesToKeepIFA,
    sitesInSystem := s.sitesInSystem + 1,
    dimHAB := 2 * st2, dimI2st := dimI2st, dimSzAB := dimSzAB,
    dimSuper := dimSuper,
    prints := prints, printsFSA := s.printsFSA,
    truncISA := truncISA, truncFSA := s.truncFSA,
    tfTrace := tfTrace,
    events := s.events ++ [Event.isaW (s.sitesInSystem + 1)],
    fsaInnerIters := s.fsaInnerIters }

/-- The infinite-system while loop, line 134: iterate stepISA while
sitesInSystem is at most half (= numberOfSites/2).  The fuel argument
bounds the number of iterations; since sitesInSystem starts at 2 and
increases by one per iteration, fuel = half suffices. -/
def isaLoopGas (m half : ℕ) : ℕ → DState → DState
  | 0, s => s
  | gas + 1, s =>
      if s.sitesInSystem ≤ half then isaLoopGas m half gas (stepISA m s)
      else s

/-- The state at line 134 on entry to the infinite-system loop:
st = 2, truncflag = 0, statesToKeepIFA = 2, sitesInSystem = 2
(lines 128-132); blkS.HAB, I2st, SzAB/SpAB/SmAB, Habcd, Psi, rhoTSR
all of dimension 4 (lines 82-95, 112); all traces empty, tfTrace
holding the initial truncflag value 0. -/
def initState : DState :=
  { st := 2, truncflag := 0, statesToKeepIFA := 2, sitesInSystem := 2,
    dimHAB := 4, dimI2st := 4, dimSzAB := 4, dimSuper := 4,
    prints := [], printsFSA := [], truncISA := [], truncFSA := [],
    tfTrace := [0], events := [], fsaInnerIters := 0 }

/-- The complete infinite-system phase for chain length L:
the while loop from the initial state with half = L/2. -/
def isaRun (m L : ℕ) : DState := isaLoopGas m (L / 2) (L / 2) initState

/-- The state after n iterations of the infinite-system loop body,
regardless of the loop guard (the guard only bounds how many
iterations the real loop performs). -/
def isaSteps (m n : ℕ) : DState := (stepISA m)^[n] initState

/-- The for loop of calculateMinEnviromentSize, lines 39-40:
for (result = r; result < numberOfSites; result++) break when
2^result >= 2*m.  The fuel counts the remaining iterations
numberOfSites - result, so the loop exits with the current result
when the fuel is exhausted (result reached numberOfSites).
powf(2.0, result) and 2.0*m are exact in the relevant range, so the
float comparison is the integer comparison 2*m <= 2^result. -/
def minEnvLoop (m : ℕ) : ℕ → ℕ → ℕ
  | 0, result => result
  | gas + 1, result =>
      if 2 * m ≤ 2 ^ result then result else minEnvLoop m gas (result + 1)

/-- calculateMinEnviromentSize, lines 36-42: the loop starts at
result = 3 and runs while result < numberOfSites, hence
numberOfSites - 3 iterations at most. -/
def calculateMinEnviromentSize (m numberOfSites : ℕ) : ℕ :=
  minEnvLoop m (numberOfSites - 3) 3

/-- One iteration of the finite-sweep inner while loop, lines 248-289:
line 250 sitesInEnviroment = numberOfSites - sitesInSystem;
line 251 blkE.FSAread(sitesInEnviroment, halfSweep);
lines 261-266 print (system, enviroment) on even half sweeps and
(enviroment, system) on odd ones;
line 271 truncateReducedDM is called with m on rhoTSR (dimension
dimSuper, unchanged since the infinite phase: the finite-sweep code
never resizes rhoTSR);
lines 285-288 sitesInSystem increments and blkS.FSAwrite is called
with the new size and the current halfSweep. -/
def stepFSA (m L halfSweep : ℕ) (s : DState) : DState :=
  let sitesInEnviroment := L - s.sitesInSystem
  { s with
    events := s.events ++ [Event.fsaR sitesInEnviroment halfSweep,
                           Event.fsaW (s.sitesInSystem + 1) halfSweep],
    printsFSA := s.printsFSA ++
      [if halfSweep % 2 = 0 then (s.sitesInSystem, sitesInEnviroment)
       else (sitesInEnviroment, s.sitesInSystem)],
    truncFSA := s.truncFSA ++ [(m, s.dimSuper)],
    fsaInnerIters := s.fsaInnerIters + 1,
    sitesInSystem := s.sitesInSystem + 1 }

/-- The finite-sweep inner while loop, line 248: iterate stepFSA while
sitesInSystem <= numberOfSites - minEnviromentSize.  The guard is a
C int comparison, stated here without natural-number truncation as
sitesInSystem + minEnv <= L.  Fuel bounds the iteration count. -/
def fsaInnerLoopGas (m L minEnv halfSweep : ℕ) : ℕ → DState → DState
  | 0, s => s
  | gas + 1, s =>
      if s.sitesInSystem + minEnv ≤ L then
        fsaInnerLoopGas m L minEnv halfSweep gas (stepFSA m L halfSweep s)
      else s

/-- One half sweep, lines 248-292: run the inner while loop (fuel L
suffices: sitesInSystem increases by one per iteration and the guard
bounds it by L - minEnv, with minEnv at least 3), then reset
sitesInSystem to minEnviromentSize and FSAread that block
(lines 291-292). -/
def fsaHalfSweep (m L minEnv halfSweep : ℕ) (s : DState) : DState :=
  let s1 := fsaInnerLoopGas m L minEnv halfSweep L s
  { s1 with
    sitesInSystem := minEnv,
    events := s1.events ++ [Event.fsaR minEnv halfSweep] }

/-- The finite size algorithm, lines 238-295: compute
minEnviromentSize (line 240), start in the middle of the chain with
blkS.FSAread(numberOfSites/2, 1) (lines 243-244), then run
numberOfHalfSweeps half sweeps (line 246). -/
def fsaPhase (m L numberOfHalfSweeps : ℕ) (s : DState) : DState :=
  let minEnviromentSize := calculateMinEnviromentSize m L
  let s0 := { s with
              sitesInSystem := L / 2,
              events := s.events ++ [Event.fsaR (L / 2) 1] }
  (List.range numberOfHalfSweeps).foldl
    (fun acc halfSweep => fsaHalfSweep m L minEnviromentSize halfSweep acc) s0

/-- The whole program run of main for inputs m (states to keep),
L (numberOfSites) and numberOfHalfSweeps: the infinite-system phase
followed by the finite size algorithm.  main then returns 0. -/
def progRun (m L numberOfHalfSweeps : ℕ) : DState :=
  fsaPhase m L numberOfHalfSweeps (isaRun m L)

/-- Whether a block-store event persists data (ISAwrite or FSAwrite)
rather than reading it. -/
def Event.isWrite : Event → Bool
  | Event.isaW _ => true
  | Event.fsaW _ _ => true
  | Event.fsaR _ _ => false

/-- Invariant of the infinite-system loop for m ≥ 2.  At every
iteration boundary truncflag holds 0 (pre-truncation: the untruncated
size 2^(sites-1) is still at most m, all arrays track 2*st, and
statesToKeepIFA has caught up with st) or 3 or 4 (truncating steady
state: st is pinned to m, statesToKeepIFA has saturated at m, and all
array dimensions are frozen at 2*m).  In addition every
truncateReducedDM call so far requested at most the dimension of the
density matrix it was given. -/
def CoreInv (m : ℕ) (s : DState) : Prop :=
  ((s.truncflag = 0 ∧ s.st = 2 ^ (s.sitesInSystem - 1) ∧
      s.statesToKeepIFA = s.st ∧ s.st ≤ m ∧
      s.dimSuper = 2 * s.st ∧ s.dimHAB = 2 * s.st ∧
      s.dimSzAB = 2 * s.st ∧ 2 ≤ s.sitesInSystem) ∨
   ((s.truncflag = 3 ∨ s.truncflag = 4) ∧ s.st = m ∧
      s.statesToKeepIFA = m ∧ s.dimSuper = 2 * m ∧ s.dimHAB = 2 * m ∧
      s.dimSzAB = 2 * m ∧ s.dimI2st = 2 * m)) ∧
  ∀ p ∈ s.truncISA, p.1 ≤ p.2

/-- Invariant linking truncflag to the full sequence of values it has
held, valid for every m (no precondition): the trace grows through the
prefixes [0], [0,1,2,3], [0,1,2,3,4] of the five-state history. -/
def TfInv (m : ℕ) (s : DState) : Prop :=
  (s.truncflag = 0 ∧ s.tfTrace = [0]) ∨
  (s.truncflag = 3 ∧ s.tfTrace = [0, 1, 2, 3] ∧ s.st = m) ∨
  (s.truncflag = 4 ∧ s.tfTrace = [0, 1, 2, 3, 4] ∧ s.st = m)

/-! Projection lemmas for the loop bodies. -/

@[simp] lemma stepISA_sitesInSystem (m : ℕ) (s : DState) :
    (stepISA m s).sitesInSystem = s.sitesInSystem + 1 := rfl

@[simp] lemma stepISA_prints (m : ℕ) (s : DState) :
    (stepISA m s).prints = s.prints ++ [(s.sitesInSystem, s.sitesInSystem)] :=
  rfl

@[simp] lemma stepISA_printsFSA (m : ℕ) (s : DState) :
    (stepISA m s).printsFSA = s.printsFSA := rfl

@[simp] lemma stepISA_truncFSA (m : ℕ) (s : DState) :
    (stepISA m s).truncFSA = s.truncFSA := rfl

@[simp] lemma stepISA_fsaInnerIters (m : ℕ) (s : DState) :
    (stepISA m s).fsaInnerIters = s.fsaInnerIters := rfl

@[simp] lemma stepISA_events (m : ℕ) (s : DState) :
    (stepISA m s).events = s.events ++ [Event.isaW (s.sitesInSystem + 1)] :=
  rfl

lemma stepISA_statesToKeepIFA (m : ℕ) (s : DState) :
    (stepISA m s).statesToKeepIFA = min (2 * s.statesToKeepIFA) m := by
  show (if 2 * s.statesToKeepIFA ≤ m then 2 * s.statesToKeepIFA else m) = _
  split <;> omega

@[simp] lemma stepFSA_sitesInSystem (m L h : ℕ) (s : DState) :
    (stepFSA m L h s).sitesInSystem = s.sitesInSystem + 1 := rfl

@[simp] lemma stepFSA_truncISA (m L h : ℕ) (s : DState) :
    (stepFSA m L h s).truncISA = s.truncISA := rfl

@[simp] lemma stepFSA_truncFSA (m L h : ℕ) (s : DState) :
    (stepFSA m L h s).truncFSA = s.truncFSA ++ [(m, s.dimSuper)] := rfl

@[simp] lemma stepFSA_tfTrace (m L h : ℕ) (s : DState) :
    (stepFSA m L h s).tfTrace = s.tfTrace := rfl

@[simp] lemma stepFSA_prints (m L h : ℕ) (s : DState) :
    (stepFSA m L h s).prints = s.prints := rfl

@[simp] lemma stepFSA_dimSuper (m L h : ℕ) (s : DState) :
    (stepFSA m L h s).dimSuper = s.dimSuper := rfl

@[simp] lemma stepFSA_events (m L h : ℕ) (s : DState) :
    (stepFSA m L h s).events =
      s.events ++ [Event.fsaR (L - s.sitesInSystem) h,
                   Event.fsaW (s.sitesInSystem + 1) h] := rfl

@[simp] lemma stepFSA_printsFSA (m L h : ℕ) (s : DState) :
    (stepFSA m L h s).printsFSA = s.printsFSA ++
      [if h % 2 = 0 then (s.sitesInSystem, L - s.sitesInSystem)
       else (L - s.sitesInSystem, s.sitesInSystem)] := rfl

@[simp] lemma stepFSA_fsaInnerIters (m L h : ℕ) (s : DState) :
    (stepFSA m L h s).fsaInnerIters = s.fsaInnerIters + 1 := rfl

/-! Generic invariant lemmas for the loops. -/

lemma isaLoopGas_inv (m half : ℕ) (Inv : DState → Prop)
    (hstep : ∀ s, Inv s → Inv (stepISA m s)) :
    ∀ gas s, Inv s → Inv (isaLoopGas m half gas s) := by
  intro gas
  induction gas with
  | zero => intro s hs; exact hs
  | succ g ih =>
      intro s hs
      rw [isaLoopGas]
      split
      · exact ih _ (hstep s hs)
      · exact hs

lemma isaSteps_inv (m : ℕ) (Inv : DState → Prop)
    (hstep : ∀ s, Inv s → Inv (stepISA m s)) (h0 : Inv initState) :
    ∀ n, Inv (isaSteps m n) := by
  intro n
  induction n with
  | zero => exact h0
  | succ k ih =>
      rw [isaSteps, Function.iterate_succ_apply']
      exact hstep _ ih

lemma fsaInnerLoopGas_inv (m L me h : ℕ) (Inv : DState → Prop)
    (hstep : ∀ s, Inv s → Inv (stepFSA m L h s)) :
    ∀ gas s, Inv s → Inv (fsaInnerLoopGas m L me h gas s) := by
  intro gas
  induction gas with
  | zero => intro s hs; exact hs
  | succ g ih =>
      intro s hs
      rw [fsaInnerLoopGas]
      split
      · exact ih _ (hstep s hs)
      · exact hs

lemma foldl_fsaHalfSweep_inv (m L me : ℕ) (Inv : DState → Prop)
    (h : ∀ hs s, Inv s → Inv (fsaHalfSweep m L me hs s)) :
    ∀ l : List ℕ, ∀ s, Inv s →
      Inv (l.foldl (fun acc hs => fsaHalfSweep m L me hs acc) s) := by
  intro l
  induction l with
  | nil => intro s hs; exact hs
  | cons a t ih =>
      intro s hs
      rw [List.foldl_cons]
      exact ih _ (h a s hs)

/-! Fields each phase leaves untouched. -/

lemma isaLoopGas_untouched (m half : ℕ) (gas : ℕ) (s : DState) :
    (isaLoopGas m half gas s).truncFSA = s.truncFSA ∧
    (isaLoopGas m half gas s).printsFSA = s.printsFSA ∧
    (isaLoopGas m half gas s).fsaInnerIters = s.fsaInnerIters := by
  induction gas generalizing s with
  | zero => exact ⟨rfl, rfl, rfl⟩
  | succ g ih =>
      rw [isaLoopGas]
      split
      · obtain ⟨h1, h2, h3⟩ := ih (stepISA m s)
        simp [h1, h2, h3]
      · exact ⟨rfl, rfl, rfl⟩

@[simp] lemma isaRun_truncFSA (m L : ℕ) : (isaRun m L).truncFSA = [] :=
  (isaLoopGas_untouched m (L / 2) (L / 2) initState).1

@[simp] lemma isaRun_printsFSA (m L : ℕ) : (isaRun m L).printsFSA = [] :=
  (isaLoopGas_untouched m (L / 2) (L / 2) initState).2.1

@[simp] lemma isaRun_fsaInnerIters (m L : ℕ) :
    (isaRun m L).fsaInnerIters = 0 :=
  (isaLoopGas_untouched m (L / 2) (L / 2) initState).2.2

lemma fsaHalfSweep_untouched (m L me hs : ℕ) (s : DState) :
    (fsaHalfSweep m L me hs s).truncISA = s.truncISA ∧
    (fsaHalfSweep m L me hs s).tfTrace = s.tfTrace ∧
    (fsaHalfSweep m L me hs s).prints = s.prints ∧
    (fsaHalfSweep m L me hs s).dimSuper = s.dimSuper := by
  have h : ∀ gas, ∀ s' : DState,
      (fsaInnerLoopGas m L me hs gas s').truncISA = s'.truncISA ∧
      (fsaInnerLoopGas m L me hs gas s').tfTrace = s'.tfTrace ∧
      (fsaInnerLoopGas m L me hs gas s').prints = s'.prints ∧
      (fsaInnerLoopGas m L me hs gas s').dimSuper = s'.dimSuper := by
    intro gas
    induction gas with
    | zero => intro s'; exact ⟨rfl, rfl, rfl, rfl⟩
    | succ g ih =>
        intro s'
        rw [fsaInnerLoopGas]
        split
        · obtain ⟨h1, h2, h3, h4⟩ := ih (stepFSA m L hs s')
          simp [h1, h2, h3, h4]
        · exact ⟨rfl, rfl, rfl, rfl⟩
  obtain ⟨h1, h2, h3, h4⟩ := h L s
  exact ⟨h1, h2, h3, h4⟩

lemma fsaPhase_untouched (m L n : ℕ) (s : DState) :
    (fsaPhase m L n s).truncISA = s.truncISA ∧
    (fsaPhase m L n s).tfTrace = s.tfTrace ∧
    (fsaPhase m L n s).prints = s.prints ∧
    (fsaPhase m L n s).dimSuper = s.dimSuper := by
  have key := foldl_fsaHalfSweep_inv m L (calculateMinEnviromentSize m L)
    (fun s' => s'.truncISA = s.truncISA ∧ s'.tfTrace = s.tfTrace ∧
      s'.prints = s.prints ∧ s'.dimSuper = s.dimSuper)
    (by
      intro hs s' h'
      obtain ⟨u1, u2, u3, u4⟩ := fsaHalfSweep_untouched m L
        (calculateMinEnviromentSize m L) hs s'
      exact ⟨u1.trans h'.1, u2.trans h'.2.1, u3.trans h'.2.2.1,
        u4.trans h'.2.2.2⟩)
    (List.range n)
    { s with
      sitesInSystem := L / 2,
      events := s.events ++ [Event.fsaR (L / 2) 1] }
    ⟨rfl, rfl, rfl, rfl⟩
  exact key

/-! Closed forms for the infinite-system loop. -/

lemma isaLoopGas_prints (m half : ℕ) :
    ∀ gas, ∀ s : DState, half + 1 ≤ s.sitesInSystem + gas →
      (isaLoopGas m half gas s).prints = s.prints ++
        (List.range (half + 1 - s.sitesInSystem)).map
          (fun t => (s.sitesInSystem + t, s.sitesInSystem + t)) := by
  intro gas
  induction gas with
  | zero =>
      intro s hgas
      have h0 : half + 1 - s.sitesInSystem = 0 := by omega
      simp [isaLoopGas, h0]
  | succ g ih =>
      intro s hgas
      rw [isaLoopGas]
      split
      · rename_i hcond
        rw [ih (stepISA m s) (by simp; omega)]
        have hn : half + 1 - s.sitesInSystem = (half - s.sitesInSystem) + 1 :=
          by omega
        rw [stepISA_prints, stepISA_sitesInSystem, hn,
          List.range_succ_eq_map]
        have hm : half + 1 - (s.sitesInSystem + 1) = half - s.sitesInSystem :=
          by omega
        rw [hm]
        simp [List.map_map, List.append_assoc, Function.comp_def,
          Nat.add_assoc, Nat.add_comm 1]
      · rename_i hcond
        have h0 : half + 1 - s.sitesInSystem = 0 := by omega
        simp [h0]

lemma isaLoopGas_sis (m half : ℕ) :
    ∀ gas, ∀ s : DState, half + 1 ≤ s.sitesInSystem + gas →
      s.sitesInSystem ≤ half + 1 →
      (isaLoopGas m half gas s).sitesInSystem = half + 1 := by
  intro gas
  induction gas with
  | zero =>
      intro s h1 h2
      simp only [isaLoopGas]
      omega
  | succ g ih =>
      intro s h1 h2
      rw [isaLoopGas]
      split
      · rename_i hcond
        exact ih (stepISA m s) (by simp; omega) (by simp; omega)
      · rename_i hcond
        omega

/-! Characterization of calculateMinEnviromentSize. -/

lemma minEnvLoop_ge (m : ℕ) : ∀ gas r, r ≤ minEnvLoop m gas r := by
  intro gas
  induction gas with
  | zero => intro r; exact Nat.le_refl r
  | succ g ih =>
      intro r
      rw [minEnvLoop]
      split
      · exact Nat.le_refl r
      · exact Nat.le_trans (Nat.le_succ r) (ih (r + 1))

lemma minEnvLoop_break (m : ℕ) :
    ∀ gas r, (∃ u, r ≤ u ∧ u < r + gas ∧ 2 * m ≤ 2 ^ u) →
      2 * m ≤ 2 ^ minEnvLoop m gas r ∧ minEnvLoop m gas r < r + gas ∧
      ∀ u, r ≤ u → 2 * m ≤ 2 ^ u → minEnvLoop m gas r ≤ u := by
  intro gas
  induction gas with
  | zero =>
      intro r hex
      exact absurd hex (by rintro ⟨u, h1, h2, h3⟩; omega)
  | succ g ih =>
      intro r hex
      rw [minEnvLoop]
      split
      · rename_i hbr
        exact ⟨hbr, by omega, fun u hu _ => hu⟩
      · rename_i hbr
        obtain ⟨u, hu1, hu2, hu3⟩ := hex
        have hur : r + 1 ≤ u := by
          rcases Nat.eq_or_lt_of_le hu1 with h | h
          · subst h; exact absurd hu3 hbr
          · omega
        obtain ⟨c1, c2, c3⟩ := ih (r + 1) ⟨u, hur, by omega, hu3⟩
        refine ⟨c1, by omega, ?_⟩
        intro v hv hv2
        have hvr : r + 1 ≤ v := by
          rcases Nat.eq_or_lt_of_le hv with h | h
          · subst h; exact absurd hv2 hbr
          · omega
        exact c3 v hvr hv2

lemma minEnvLoop_noBreak (m : ℕ) :
    ∀ gas r, (∀ u, r ≤ u → u < r + gas → 2 ^ u < 2 * m) →
      minEnvLoop m gas r = r + gas := by
  intro gas
  induction gas with
  | zero => intro r _; rfl
  | succ g ih =>
      intro r hall
      rw [minEnvLoop]
      split
      · rename_i hbr
        exact absurd hbr (by have := hall r (Nat.le_refl r) (by omega); omega)
      · rename_i hbr
        have := ih (r + 1) (fun u hu1 hu2 => hall u (by omega) (by omega))
        omega

lemma calculateMinEnviromentSize_ge3 (m L : ℕ) :
    3 ≤ calculateMinEnviromentSize m L :=
  minEnvLoop_ge m (L - 3) 3

lemma calculateMinEnviromentSize_break (m L : ℕ)
    (hex : ∃ u, 3 ≤ u ∧ u < L ∧ 2 * m ≤ 2 ^ u) :
    2 * m ≤ 2 ^ calculateMinEnviromentSize m L ∧
    calculateMinEnviromentSize m L < L ∧
    ∀ u, 3 ≤ u → 2 * m ≤ 2 ^ u → calculateMinEnviromentSize m L ≤ u := by
  obtain ⟨u, hu1, hu2, hu3⟩ := hex
  have hL : 3 < L := by omega
  obtain ⟨c1, c2, c3⟩ := minEnvLoop_break m (L - 3) 3
    ⟨u, hu1, by omega, hu3⟩
  rw [calculateMinEnviromentSize]
  exact ⟨c1, by omega, c3⟩

lemma calculateMinEnviromentSize_noBreak (m L : ℕ)
    (hall : ∀ u, 3 ≤ u → u < L → 2 ^ u < 2 * m) :
    calculateMinEnviromentSize m L = max 3 L := by
  have := minEnvLoop_noBreak m (L - 3) 3
    (fun u hu1 hu2 => hall u hu1 (by omega))
  rw [calculateMinEnviromentSize, this]
  omega

/-! Shape of one infinite-system iteration in each branch of the
truncation state machine. -/

lemma stepISA_shape_double (m : ℕ) (s : DState) (h0 : s.truncflag = 0)
    (hc : 2 * s.st ≤ m) :
    stepISA m s =
      { st := 2 * s.st, truncflag := 0,
        statesToKeepIFA :=
          if 2 * s.statesToKeepIFA ≤ m then 2 * s.statesToKeepIFA else m,
        sitesInSystem := s.sitesInSystem + 1,
        dimHAB := 2 * (2 * s.st), dimI2st := 4 * (2 * s.st),
        dimSzAB := 2 * (2 * s.st), dimSuper := 2 * (2 * s.st),
        prints := s.prints ++ [(s.sitesInSystem, s.sitesInSystem)],
        printsFSA := s.printsFSA,
        truncISA := s.truncISA ++
          [(if 2 * s.statesToKeepIFA ≤ m then 2 * s.statesToKeepIFA else m,
            s.dimSuper)],
        truncFSA := s.truncFSA, tfTrace := s.tfTrace,
        events := s.events ++ [Event.isaW (s.sitesInSystem + 1)],
        fsaInnerIters := s.fsaInnerIters } := by
  simp [stepISA, h0, hc]

lemma stepISA_shape_trans (m : ℕ) (s : DState) (h0 : s.truncflag = 0)
    (hc : ¬ 2 * s.st ≤ m) :
    stepISA m s =
      { st := m, truncflag := 3,
        statesToKeepIFA :=
          if 2 * s.statesToKeepIFA ≤ m then 2 * s.statesToKeepIFA else m,
        sitesInSystem := s.sitesInSystem + 1,
        dimHAB := 2 * m, dimI2st := 2 * m,
        dimSzAB := 2 * m, dimSuper := 2 * m,
        prints := s.prints ++ [(s.sitesInSystem, s.sitesInSystem)],
        printsFSA := s.printsFSA,
        truncISA := s.truncISA ++
          [(if 2 * s.statesToKeepIFA ≤ m then 2 * s.statesToKeepIFA else m,
            s.dimSuper)],
        truncFSA := s.truncFSA, tfTrace := s.tfTrace ++ [1, 2, 3],
        events := s.events ++ [Event.isaW (s.sitesInSystem + 1)],
        fsaInnerIters := s.fsaInnerIters } := by
  simp [stepISA, h0, hc]

lemma stepISA_shape_tf3 (m : ℕ) (s : DState) (h3 : s.truncflag = 3)
    (hc : ¬ 2 * s.st ≤ m) :
    stepISA m s =
      { st := s.st, truncflag := 4,
        statesToKeepIFA :=
          if 2 * s.statesToKeepIFA ≤ m then 2 * s.statesToKeepIFA else m,
        sitesInSystem := s.sitesInSystem + 1,
        dimHAB := 2 * s.st, dimI2st := s.dimI2st,
        dimSzAB := s.dimSzAB, dimSuper := s.dimSuper,
        prints := s.prints ++ [(s.sitesInSystem, s.sitesInSystem)],
        printsFSA := s.printsFSA,
        truncISA := s.truncISA ++
          [(if 2 * s.statesToKeepIFA ≤ m then 2 * s.statesToKeepIFA else m,
            s.dimSuper)],
        truncFSA := s.truncFSA, tfTrace := s.tfTrace ++ [4],
        events := s.events ++ [Event.isaW (s.sitesInSystem + 1)],
        fsaInnerIters := s.fsaInnerIters } := by
  simp [stepISA, h3, hc]

lemma stepISA_shape_tf3_low (m : ℕ) (s : DState) (h3 : s.truncflag = 3)
    (hc : 2 * s.st ≤ m) :
    stepISA m s =
      { st := 2 * s.st, truncflag := 3,
        statesToKeepIFA :=
          if 2 * s.statesToKeepIFA ≤ m then 2 * s.statesToKeepIFA else m,
        sitesInSystem := s.sitesInSystem + 1,
        dimHAB := 2 * (2 * s.st), dimI2st := s.dimI2st,
        dimSzAB := s.dimSzAB, dimSuper := s.dimSuper,
        prints := s.prints ++ [(s.sitesInSystem, s.sitesInSystem)],
        printsFSA := s.printsFSA,
        truncISA := s.truncISA ++
          [(if 2 * s.statesToKeepIFA ≤ m then 2 * s.statesToKeepIFA else m,
            s.dimSuper)],
        truncFSA := s.truncFSA, tfTrace := s.tfTrace,
        events := s.events ++ [Event.isaW (s.sitesInSystem + 1)],
        fsaInnerIters := s.fsaInnerIters } := by
  simp [stepISA, h3, hc]

lemma stepISA_shape_tf4 (m : ℕ) (s : DState) (h4 : s.truncflag = 4)
    (hc : ¬ 2 * s.st ≤ m) :
    stepISA m s =
      { st := s.st, truncflag := 4,
        statesToKeepIFA :=
          if 2 * s.statesToKeepIFA ≤ m then 2 * s.statesToKeepIFA else m,
        sitesInSystem := s.sitesInSystem + 1,
        dimHAB := 2 * s.st, dimI2st := s.dimI2st,
        dimSzAB := s.dimSzAB, dimSuper := s.dimSuper,
        prints := s.prints ++ [(s.sitesInSystem, s.sitesInSystem)],
        printsFSA := s.printsFSA,
        truncISA := s.truncISA ++
          [(if 2 * s.statesToKeepIFA ≤ m then 2 * s.statesToKeepIFA else m,
            s.dimSuper)],
        truncFSA := s.truncFSA, tfTrace := s.tfTrace,
        events := s.events ++ [Event.isaW (s.sitesInSystem + 1)],
        fsaInnerIters := s.fsaInnerIters } := by
  simp [stepISA, h4, hc]

lemma stepISA_shape_tf4_low (m : ℕ) (s : DState) (h4 : s.truncflag = 4)
    (hc : 2 * s.st ≤ m) :
    stepISA m s =
      { st := 2 * s.st, truncflag := 4,
        statesToKeepIFA :=
          if 2 * s.statesToKeepIFA ≤ m then 2 * s.statesToKeepIFA else m,
        sitesInSystem := s.sitesInSystem + 1,
        dimHAB := 2 * (2 * s.st), dimI2st := s.dimI2st,
        dimSzAB := s.dimSzAB, dimSuper := s.dimSuper,
        prints := s.prints ++ [(s.sitesInSystem, s.sitesInSystem)],
        printsFSA := s.printsFSA,
        truncISA := s.truncISA ++
          [(if 2 * s.statesToKeepIFA ≤ m then 2 * s.statesToKeepIFA else m,
            s.dimSuper)],
        truncFSA := s.truncFSA, tfTrace := s.tfTrace,
        events := s.events ++ [Event.isaW (s.sitesInSystem + 1)],
        fsaInnerIters := s.fsaInnerIters } := by
  simp [stepISA, h4, hc]

/-! Reachable-state invariants of the infinite-system loop. -/

lemma coreInv_init (m : ℕ) (hm : 2 ≤ m) : CoreInv m initState := by
  constructor
  · left
    refine ⟨rfl, by norm_num [initState], rfl, hm, rfl, rfl, rfl, le_refl 2⟩
  · intro p hp
    simp [initState] at hp

lemma coreInv_step (m : ℕ) (hm : 2 ≤ m) :
    ∀ s, CoreInv m s → CoreInv m (stepISA m s) := by
  intro s h
  obtain ⟨hb, htr⟩ := h
  rcases hb with ⟨h0, hst, hstk, hle, hds, hdh, hdz, hsis⟩ |
    ⟨h34, hst, hstk, hds, hdh, hdz, hdi⟩
  · by_cases hc : 2 * s.st ≤ m
    · rw [stepISA_shape_double m s h0 hc]
      have hkeep : (if 2 * s.statesToKeepIFA ≤ m
          then 2 * s.statesToKeepIFA else m) = 2 * s.st := by
        rw [hstk]
        simp [hc]
      constructor
      · left
        refine ⟨rfl, ?_, hkeep, hc, rfl, rfl, rfl,
          by show 2 ≤ s.sitesInSystem + 1; omega⟩
        have h1 : s.sitesInSystem + 1 - 1 = (s.sitesInSystem - 1) + 1 := by
          omega
        rw [h1, pow_succ, hst]
        ring
      · intro p hp
        rcases List.mem_append.mp hp with hp | hp
        · exact htr p hp
        · have hpe : p = (2 * s.st, s.dimSuper) := by
            rw [hkeep] at hp
            simpa using hp
          rw [hpe, hds]

    · rw [stepISA_shape_trans m s h0 hc]
      have hkeep : (if 2 * s.statesToKeepIFA ≤ m
          then 2 * s.statesToKeepIFA else m) = m := by
        rw [hstk]
        simp [hc]
      constructor
      · right
        exact ⟨Or.inl rfl, rfl, hkeep, rfl, rfl, rfl, rfl⟩
      · intro p hp
        rcases List.mem_append.mp hp with hp | hp
        · exact htr p hp
        · have hpe : p = (m, s.dimSuper) := by
            rw [hkeep] at hp
            simpa using hp
          rw [hpe, hds]
          omega
  · have hcn : ¬ 2 * s.st ≤ m := by rw [hst]; omega
    have hkeep : (if 2 * s.statesToKeepIFA ≤ m
        then 2 * s.statesToKeepIFA else m) = m := by
      rw [hstk]
      have : ¬ 2 * m ≤ m := by omega
      simp [this]
    have hmem : ∀ p ∈ s.truncISA ++ [(if 2 * s.statesToKeepIFA ≤ m
        then 2 * s.statesToKeepIFA else m, s.dimSuper)], p.1 ≤ p.2 := by
      intro p hp
      rcases List.mem_append.mp hp with hp | hp
      · exact htr p hp
      · have hpe : p = (m, s.dimSuper) := by
          rw [hkeep] at hp
          simpa using hp
        rw [hpe, hds]
        omega
    rcases h34 with h3 | h4
    · rw [stepISA_shape_tf3 m s h3 hcn]
      exact ⟨Or.inr ⟨Or.inr rfl, hst, hkeep, hds,
        by rw [hst], hdz, hdi⟩, hmem⟩
    · rw [stepISA_shape_tf4 m s h4 hcn]
      exact ⟨Or.inr ⟨Or.inr rfl, hst, hkeep, hds,
        by rw [hst], hdz, hdi⟩, hmem⟩

lemma tfInv_init (m : ℕ) : TfInv m initState := Or.inl ⟨rfl, rfl⟩

lemma tfInv_step (m : ℕ) : ∀ s, TfInv m s → TfInv m (stepISA m s) := by
  intro s h
  rcases h with ⟨h0, htr⟩ | ⟨h3, htr, hst⟩ | ⟨h4, htr, hst⟩
  · by_cases hc : 2 * s.st ≤ m
    · rw [stepISA_shape_double m s h0 hc]
      exact Or.inl ⟨rfl, htr⟩
    · rw [stepISA_shape_trans m s h0 hc]
      refine Or.inr (Or.inl ⟨rfl, ?_, rfl⟩)
      rw [htr]
      rfl
  · by_cases hc : 2 * s.st ≤ m
    · rw [stepISA_shape_tf3_low m s h3 hc]
      have hm0 : m = 0 := by omega
      exact Or.inr (Or.inl ⟨rfl, htr, by show 2 * s.st = m; omega⟩)
    · rw [stepISA_shape_tf3 m s h3 hc]
      refine Or.inr (Or.inr ⟨rfl, ?_, hst⟩)
      rw [htr]
      rfl
  · by_cases hc : 2 * s.st ≤ m
    · rw [stepISA_shape_tf4_low m s h4 hc]
      have hm0 : m = 0 := by omega
      exact Or.inr (Or.inr ⟨rfl, htr, by show 2 * s.st = m; omega⟩)
    · rw [stepISA_shape_tf4 m s h4 hc]
      exact Or.inr (Or.inr ⟨rfl, htr, hst⟩)

/-! Facts about the state at the end of the infinite-system phase. -/

lemma coreInv_isaRun (m L : ℕ) (hm : 2 ≤ m) : CoreInv m (isaRun m L) :=
  isaLoopGas_inv m (L / 2) (CoreInv m) (coreInv_step m hm) (L / 2)
    initState (coreInv_init m hm)

lemma tfInv_isaRun (m L : ℕ) : TfInv m (isaRun m L) :=
  isaLoopGas_inv m (L / 2) (TfInv m) (tfInv_step m) (L / 2)
    initState (tfInv_init m)

lemma isaRun_sis (m L : ℕ) (hL : 2 ≤ L) :
    (isaRun m L).sitesInSystem = L / 2 + 1 := by
  have h2 : 1 ≤ L / 2 := by omega
  exact isaLoopGas_sis m (L / 2) (L / 2) initState
    (by simp [initState]; omega) (by simp [initState]; omega)

lemma isaRun_events_isaW (m L : ℕ) :
    ∀ e ∈ (isaRun m L).events, ∃ sz, e = Event.isaW sz := by
  have key := isaLoopGas_inv m (L / 2)
    (fun s => ∀ e ∈ s.events, ∃ sz, e = Event.isaW sz)
    (by
      intro s hs e he
      rw [stepISA_events] at he
      rcases List.mem_append.mp he with he | he
      · exact hs e he
      · exact ⟨s.sitesInSystem + 1, by simpa using he⟩)
    (L / 2) initState
    (by intro e he; simp [initState] at he)
  exact key

/-! Trace shape of the finite-sweep phase. -/

lemma fsaInnerLoopGas_truncFSA (m L me h : ℕ) :
    ∀ gas, ∀ s : DState, ∃ k,
      (fsaInnerLoopGas m L me h gas s).truncFSA =
        s.truncFSA ++ List.replicate k (m, s.dimSuper) := by
  intro gas
  induction gas with
  | zero => intro s; exact ⟨0, by simp [fsaInnerLoopGas]⟩
  | succ g ih =>
      intro s
      rw [fsaInnerLoopGas]
      split
      · obtain ⟨k, hk⟩ := ih (stepFSA m L h s)
        refine ⟨k + 1, ?_⟩
        rw [hk]
        simp [List.replicate_succ]
      · exact ⟨0, by simp⟩

lemma fsaHalfSweep_truncFSA (m L me hs : ℕ) (s : DState) :
    ∃ k, (fsaHalfSweep m L me hs s).truncFSA =
      s.truncFSA ++ List.replicate k (m, s.dimSuper) := by
  obtain ⟨k, hk⟩ := fsaInnerLoopGas_truncFSA m L me hs L s
  exact ⟨k, by simp [fsaHalfSweep, hk]⟩

lemma fsaPhase_truncFSA (m L n : ℕ) (s : DState) :
    ∃ k, (fsaPhase m L n s).truncFSA =
      s.truncFSA ++ List.replicate k (m, s.dimSuper) := by
  have key : ∀ l : List ℕ, ∀ s' : DState, ∃ k,
      (l.foldl (fun acc hs =>
        fsaHalfSweep m L (calculateMinEnviromentSize m L) hs acc) s').truncFSA
        = s'.truncFSA ++ List.replicate k (m, s'.dimSuper) := by
    intro l
    induction l with
    | nil => intro s'; exact ⟨0, by simp⟩
    | cons a t ih =>
        intro s'
        rw [List.foldl_cons]
        obtain ⟨k1, hk1⟩ := fsaHalfSweep_truncFSA m L
          (calculateMinEnviromentSize m L) a s'
        obtain ⟨k2, hk2⟩ := ih
          (fsaHalfSweep m L (calculateMinEnviromentSize m L) a s')
        have hdim := (fsaHalfSweep_untouched m L
          (calculateMinEnviromentSize m L) a s').2.2.2
        refine ⟨k1 + k2, ?_⟩
        rw [hk2, hk1, hdim, List.replicate_add]
        simp [List.append_assoc]
  obtain ⟨k, hk⟩ := key (List.range n)
    { s with
      sitesInSystem := L / 2,
      events := s.events ++ [Event.fsaR (L / 2) 1] }
  exact ⟨k, hk⟩

/-- When the inner while-loop guard fails on entry, the loop exits
immediately, whatever the fuel. -/
lemma fsaInnerLoopGas_exit (m L me h gas : ℕ) (s : DState)
    (hcond : ¬ s.sitesInSystem + me ≤ L) :
    fsaInnerLoopGas m L me h gas s = s := by
  cases gas with
  | zero => rfl
  | succ g => rw [fsaInnerLoopGas, if_neg hcond]

/-- If the minimum environment size is so large that the inner loop
guard fails both at sitesInSystem = L/2 (start of the phase) and at
sitesInSystem = minEnviromentSize (start of every later half sweep),
then the whole finite-sweep phase performs no inner iteration: its
truncation calls, energy prints and iteration count are untouched. -/
lemma fsaPhase_frozen (m L n : ℕ) (s : DState)
    (h1 : L < L / 2 + calculateMinEnviromentSize m L)
    (h2 : L < 2 * calculateMinEnviromentSize m L) :
    (fsaPhase m L n s).truncFSA = s.truncFSA ∧
    (fsaPhase m L n s).printsFSA = s.printsFSA ∧
    (fsaPhase m L n s).fsaInnerIters = s.fsaInnerIters := by
  have key := foldl_fsaHalfSweep_inv m L (calculateMinEnviromentSize m L)
    (fun s' => s'.truncFSA = s.truncFSA ∧ s'.printsFSA = s.printsFSA ∧
      s'.fsaInnerIters = s.fsaInnerIters ∧
      (s'.sitesInSystem = L / 2 ∨
       s'.sitesInSystem = calculateMinEnviromentSize m L))
    (by
      intro hs s' h'
      obtain ⟨e1, e2, e3, e4⟩ := h'
      have hcond : ¬ s'.sitesInSystem + calculateMinEnviromentSize m L ≤ L :=
        by rcases e4 with e4 | e4 <;> rw [e4] <;> omega
      have hexit := fsaInnerLoopGas_exit m L
        (calculateMinEnviromentSize m L) hs L s' hcond
      rw [fsaHalfSweep, hexit]
      exact ⟨e1, e2, e3, Or.inr rfl⟩)
    (List.range n)
    { s with
      sitesInSystem := L / 2,
      events := s.events ++ [Event.fsaR (L / 2) 1] }
    ⟨rfl, rfl, rfl, Or.inl rfl⟩
  exact ⟨key.1, key.2.1, key.2.2.1⟩

/-- The finite-sweep phase only appends to the event trace, starting
with the unconditional blkS.FSAread(numberOfSites/2, 1) of line 244. -/
lemma fsaPhase_events (m L n : ℕ) (s : DState) :
    ∃ t, (fsaPhase m L n s).events =
      s.events ++ Event.fsaR (L / 2) 1 :: t := by
  have hinner : ∀ gas hs, ∀ s' : DState, ∃ t,
      (fsaInnerLoopGas m L (calculateMinEnviromentSize m L) hs gas s').events
        = s'.events ++ t := by
    intro gas
    induction gas with
    | zero => intro hs s'; exact ⟨[], by simp [fsaInnerLoopGas]⟩
    | succ g ih =>
        intro hs s'
        rw [fsaInnerLoopGas]
        split
        · obtain ⟨t, ht⟩ := ih hs (stepFSA m L hs s')
          refine ⟨Event.fsaR (L - s'.sitesInSystem) hs ::
            Event.fsaW (s'.sitesInSystem + 1) hs :: t, ?_⟩
          rw [ht, stepFSA_events]
          simp
        · exact ⟨[], by simp⟩
  have hhalf : ∀ hs, ∀ s' : DState, ∃ t,
      (fsaHalfSweep m L (calculateMinEnviromentSize m L) hs s').events =
        s'.events ++ t := by
    intro hs s'
    obtain ⟨t, ht⟩ := hinner L hs s'
    refine ⟨t ++ [Event.fsaR (calculateMinEnviromentSize m L) hs], ?_⟩
    rw [fsaHalfSweep]
    show (fsaInnerLoopGas m L (calculateMinEnviromentSize m L)
      hs L s').events ++ _ = _
    rw [ht, List.append_assoc]
  have hfold : ∀ l : List ℕ, ∀ s' : DState, ∃ t,
      (l.foldl (fun acc hs =>
        fsaHalfSweep m L (calculateMinEnviromentSize m L) hs acc) s').events
        = s'.events ++ t := by
    intro l
    induction l with
    | nil => intro s'; exact ⟨[], by simp⟩
    | cons a u ih =>
        intro s'
        rw [List.foldl_cons]
        obtain ⟨t1, ht1⟩ := hhalf a s'
        obtain ⟨t2, ht2⟩ :=
          ih (fsaHalfSweep m L (calculateMinEnviromentSize m L) a s')
        rw [ht2, ht1, List.append_assoc]
        exact ⟨t1 ++ t2, rfl⟩
  obtain ⟨t, ht⟩ := hfold (List.range n)
    { s with
      sitesInSystem := L / 2,
      events := s.events ++ [Event.fsaR (L / 2) 1] }
  refine ⟨t, ?_⟩
  show (List.foldl
    (fun acc hs => fsaHalfSweep m L (calculateMinEnviromentSize m L) hs acc)
    { s with
      sitesInSystem := L / 2,
      events := s.events ++ [Event.fsaR (L / 2) 1] }
    (List.range n)).events = _
  rw [ht]
  show (s.events ++ [Event.fsaR (L / 2) 1]) ++ t = _
  rw [List.append_assoc]
  rfl

lemma isaSteps_succ (m n : ℕ) :
    isaSteps m (n + 1) = stepISA m (isaSteps m n) := by
  rw [isaSteps, isaSteps, Function.iterate_succ_apply']

lemma coreInv_isaSteps (m : ℕ) (hm : 2 ≤ m) :
    ∀ n, CoreInv m (isaSteps m n) :=
  isaSteps_inv m (CoreInv m) (coreInv_step m hm) (coreInv_init m hm)

/-! The claims. -/

/-- C1: for every even chain length L ≥ 4 and every keep-count m ≥ 2,
the infinite-system phase starts from a 2-site system block, iterates
while the block size is at most L/2 adding one site per step, performs
exactly L/2 - 1 growth steps, and prints exactly one energy line per
step with equal left and right site counts (the prints are exactly
(2,2), (3,3), ..., (L/2, L/2)). -/
theorem isa_growth_steps (m L : ℕ) (hm : 2 ≤ m) (hL : 4 ≤ L)
    (hE : L % 2 = 0) :
    (isaRun m L).prints =
      (List.range (L / 2 - 1)).map (fun t => (2 + t, 2 + t)) ∧
    (isaRun m L).prints.length = L / 2 - 1 ∧
    (∀ p ∈ (isaRun m L).prints, p.1 = p.2) ∧
    initState.sitesInSystem = 2 ∧
    (isaRun m L).sitesInSystem = L / 2 + 1 := by
  have h1 : (isaRun m L).prints =
      (List.range (L / 2 - 1)).map (fun t => (2 + t, 2 + t)) := by
    rw [isaRun, isaLoopGas_prints m (L / 2) (L / 2) initState
      (by simp [initState]; omega)]
    have h2 : L / 2 + 1 - initState.sitesInSystem = L / 2 - 1 := by
      show L / 2 + 1 - 2 = L / 2 - 1
      omega
    rw [h2]
    simp [initState]
  refine ⟨h1, ?_, ?_, rfl, isaRun_sis m L (by omega)⟩
  · rw [h1]
    simp
  · rw [h1]
    intro p hp
    simp only [List.mem_map, List.mem_range] at hp
    obtain ⟨t, _, ht⟩ := hp
    rw [← ht]

theorem isa_growth_steps_witness :
    2 ≤ 2 ∧ 4 ≤ 6 ∧ 6 % 2 = 0 ∧ (isaRun 2 6).prints.length = 6 / 2 - 1 :=
  ⟨by decide, by decide, by decide,
    (isa_growth_steps 2 6 (by decide) (by decide) (by decide)).2.1⟩

/-- C2, counterexample to the claim as stated: at m = 2 (which
satisfies m ≥ 1) and L = 10, calculateMinEnviromentSize returns r = 3,
and the spec characterization 2^(r-1) < 2m fails (2^2 = 4 is not
below 2*2 = 4): the loop starts at 3, so for 2m ≤ 8 the returned r is
3 regardless of where 2^r first reaches 2m. -/
theorem minEnv_claim_counterexample :
    1 ≤ 2 ∧ calculateMinEnviromentSize 2 10 = 3 ∧
    ¬ (2 ^ (calculateMinEnviromentSize 2 10 - 1) < 2 * 2) := by
  refine ⟨by decide, by decide, by decide⟩

/-- C2, amended: for every m ≥ 1 and every L, the returned r is at
least 3; if some u with 3 ≤ u < L has 2^u ≥ 2m then r is the least
integer at least 3 with 2^r ≥ 2m, hence 3 ≤ r < L, 2^r ≥ 2m, and
2^(r-1) < 2m holds whenever r > 3 (it can fail when r = 3, namely for
m ≤ 4); if no such u exists the loop runs off the end and r = max 3 L
(so r < L fails). -/
theorem minEnv_characterization (m L : ℕ) (hm : 1 ≤ m) :
    3 ≤ calculateMinEnviromentSize m L ∧
    ((∃ u, 3 ≤ u ∧ u < L ∧ 2 * m ≤ 2 ^ u) →
      (calculateMinEnviromentSize m L < L ∧
       2 * m ≤ 2 ^ calculateMinEnviromentSize m L ∧
       (∀ u, 3 ≤ u → 2 * m ≤ 2 ^ u → calculateMinEnviromentSize m L ≤ u) ∧
       (3 < calculateMinEnviromentSize m L →
         2 ^ (calculateMinEnviromentSize m L - 1) < 2 * m))) ∧
    ((∀ u, 3 ≤ u → u < L → 2 ^ u < 2 * m) →
      calculateMinEnviromentSize m L = max 3 L) := by
  refine ⟨calculateMinEnviromentSize_ge3 m L, ?_,
    calculateMinEnviromentSize_noBreak m L⟩
  intro hex
  obtain ⟨c1, c2, c3⟩ := calculateMinEnviromentSize_break m L hex
  refine ⟨c2, c1, c3, ?_⟩
  intro h3
  by_contra hcon
  have hcon2 : 2 * m ≤ 2 ^ (calculateMinEnviromentSize m L - 1) :=
    Nat.not_lt.mp hcon
  have := c3 (calculateMinEnviromentSize m L - 1) (by omega) hcon2
  omega

theorem minEnv_characterization_witness :
    1 ≤ 8 ∧ 2 * 8 ≤ 2 ^ calculateMinEnviromentSize 8 10 :=
  ⟨by decide, ((minEnv_characterization 8 10 (by decide)).2.1
    ⟨4, by decide, by decide, by decide⟩).2.1⟩

/-- C3: statesToKeepIFA starts at 2 and each growth step updates it to
min(2*statesToKeepIFA, m) (line 145); consequently, for m ≥ 2, its
value sequence is monotonically non-decreasing, never exceeds m, and
stays at m once it reaches m. -/
theorem statesToKeepIFA_ramp (m : ℕ) (hm : 2 ≤ m) :
    (isaSteps m 0).statesToKeepIFA = 2 ∧
    (∀ n, (isaSteps m (n + 1)).statesToKeepIFA =
      min (2 * (isaSteps m n).statesToKeepIFA) m) ∧
    (∀ n, (isaSteps m n).statesToKeepIFA ≤ m) ∧
    (∀ n, (isaSteps m n).statesToKeepIFA ≤
      (isaSteps m (n + 1)).statesToKeepIFA) ∧
    (∀ n, (isaSteps m n).statesToKeepIFA = m →
      (isaSteps m (n + 1)).statesToKeepIFA = m) := by
  have hrec : ∀ n, (isaSteps m (n + 1)).statesToKeepIFA =
      min (2 * (isaSteps m n).statesToKeepIFA) m := by
    intro n
    rw [isaSteps_succ, stepISA_statesToKeepIFA]
  have hbound : ∀ n, (isaSteps m n).statesToKeepIFA ≤ m := by
    intro n
    induction n with
    | zero => exact hm
    | succ k ih =>
        rw [hrec k]
        omega
  refine ⟨rfl, hrec, hbound, ?_, ?_⟩
  · intro n
    rw [hrec n]
    have := hbound n
    omega
  · intro n h
    rw [hrec n, h]
    omega

theorem statesToKeepIFA_ramp_witness :
    2 ≤ 3 ∧ (isaSteps 3 0).statesToKeepIFA = 2 ∧
    (isaSteps 3 1).statesToKeepIFA ≤ 3 :=
  ⟨by decide, (statesToKeepIFA_ramp 3 (by decide)).1,
    (statesToKeepIFA_ramp 3 (by decide)).2.2.1 1⟩

/-- C4: let K be the first growth step at which doubling the
untruncated size st would exceed m (hypotheses hK, hKt).  On entering
step K the machine is still in the no-truncation phase
(truncflag = 0); truncation begins during step K and, in that same
step's operator rebuild, st is pinned to m (lines 179-181) and the
end-of-step resize block sets the identity/operator dimension to 2m;
therefore from step K+1 onward (exactly one step after truncation
began) the single-site-augmented identity dimension I2st, the
superblock/wavefunction/density-matrix dimension and the operator
dimensions all equal 2m and never change again, st stays pinned at m,
and truncflag stays in the steady states 3/4. -/
theorem truncation_phase_transition (m K : ℕ) (hm : 2 ≤ m)
    (hK : ∀ k, k < K → 2 * (isaSteps m k).st ≤ m)
    (hKt : m < 2 * (isaSteps m K).st) :
    (isaSteps m K).truncflag = 0 ∧
    (isaSteps m (K + 1)).truncflag = 3 ∧
    (isaSteps m (K + 1)).st = m ∧
    (∀ j, K + 1 ≤ j →
      (isaSteps m j).dimI2st = 2 * m ∧ (isaSteps m j).dimSuper = 2 * m ∧
      (isaSteps m j).dimHAB = 2 * m ∧ (isaSteps m j).dimSzAB = 2 * m ∧
      (isaSteps m j).st = m ∧
      ((isaSteps m j).truncflag = 3 ∨ (isaSteps m j).truncflag = 4)) := by
  have hcore := coreInv_isaSteps m hm
  have htf0 : ∀ k, k ≤ K → (isaSteps m k).truncflag = 0 := by
    intro k
    induction k with
    | zero => intro _; rfl
    | succ j ih =>
        intro hj
        have hj0 := ih (by omega)
        have hc := hK j (by omega)
        rw [isaSteps_succ, stepISA_shape_double m _ hj0 hc]
  have htfK := htf0 K (le_refl K)
  have hKtn : ¬ 2 * (isaSteps m K).st ≤ m := by omega
  have hK1tf : (isaSteps m (K + 1)).truncflag = 3 := by
    rw [isaSteps_succ, stepISA_shape_trans m _ htfK hKtn]
  have hK1st : (isaSteps m (K + 1)).st = m := by
    rw [isaSteps_succ, stepISA_shape_trans m _ htfK hKtn]
  have hsteady : ∀ j, K + 1 ≤ j →
      ((isaSteps m j).truncflag = 3 ∨ (isaSteps m j).truncflag = 4) := by
    intro j
    induction j with
    | zero => omega
    | succ i ih =>
        intro hij
        by_cases hi : K + 1 ≤ i
        · have hprev := ih hi
          obtain ⟨hb, _⟩ := hcore i
          have hstm : (isaSteps m i).st = m := by
            rcases hb with ⟨h0, _⟩ | ⟨_, hst, _⟩
            · rcases hprev with h | h <;> omega
            · exact hst
          have hcn : ¬ 2 * (isaSteps m i).st ≤ m := by
            rw [hstm]
            omega
          rcases hprev with h3 | h4
          · rw [isaSteps_succ, stepISA_shape_tf3 m _ h3 hcn]
            exact Or.inr rfl
          · rw [isaSteps_succ, stepISA_shape_tf4 m _ h4 hcn]
            exact Or.inr rfl
        · have hik : i = K := by omega
          subst hik
          exact Or.inl hK1tf
  refine ⟨htfK, hK1tf, hK1st, ?_⟩
  intro j hj
  obtain ⟨hb, _⟩ := hcore j
  have hjs := hsteady j hj
  rcases hb with ⟨h0, _⟩ | ⟨_, hst, _, hds, hdh, hdz, hdi⟩
  · rcases hjs with h | h <;> omega
  · exact ⟨hdi, hds, hdh, hdz, hst, hjs⟩

theorem truncation_phase_transition_witness :
    2 ≤ 5 ∧ (isaSteps 5 2).dimI2st = 2 * 5 :=
  ⟨by decide, ((truncation_phase_transition 5 1 (by decide) (by decide)
    (by decide)).2.2.2 2 (by decide)).1⟩

/-- C5: in every iteration of the finite-system sweep, in every half
sweep and for every chain length and sweep count, the truncation
routine is called with exactly m retained states (line 271 passes m
verbatim, unlike the infinite-phase ramp). -/
theorem fsa_truncation_constant_m (m L n : ℕ) :
    ∀ p ∈ (progRun m L n).truncFSA, p.1 = m := by
  obtain ⟨k, hk⟩ := fsaPhase_truncFSA m L n (isaRun m L)
  intro p hp
  rw [progRun, hk, isaRun_truncFSA, List.nil_append] at hp
  rw [List.eq_of_mem_replicate hp]

theorem fsa_truncation_constant_m_witness :
    ((2, 4) : ℕ × ℕ) ∈ (progRun 2 8 1).truncFSA ∧
    ((2, 4) : ℕ × ℕ).1 = 2 :=
  ⟨by decide, fsa_truncation_constant_m 2 8 1 (2, 4) (by decide)⟩

/-- C6: for valid inputs (m ≥ 2, L ≥ 4 even) every call to
truncateReducedDM, in both phases, requests at most the dimension of
the reduced density matrix it truncates; over-truncation is impossible
by construction.  In the infinite phase this follows from the ramp
invariant; in the finite phase either truncation occurred during the
infinite phase (so the density matrix has dimension 2m ≥ m) or the
infinite phase never truncated, in which case m ≥ 2^(L/2) forces
minEnviromentSize past the sweep turnaround and no finite-sweep
truncation call happens at all. -/
theorem truncation_request_le_dim (m L n : ℕ) (hm : 2 ≤ m) (hL : 4 ≤ L)
    (hE : L % 2 = 0) :
    (∀ p ∈ (progRun m L n).truncISA, p.1 ≤ p.2) ∧
    (∀ p ∈ (progRun m L n).truncFSA, p.1 ≤ p.2) := by
  have hisa := coreInv_isaRun m L hm
  constructor
  · intro p hp
    rw [progRun, (fsaPhase_untouched m L n (isaRun m L)).1] at hp
    exact hisa.2 p hp
  · by_cases hcase : 2 ^ (L / 2) ≤ m
    · have hme : L / 2 + 1 ≤ calculateMinEnviromentSize m L := by
        by_cases hall : ∀ u, 3 ≤ u → u < L → 2 ^ u < 2 * m
        · rw [calculateMinEnviromentSize_noBreak m L hall]
          omega
        · push_neg at hall
          obtain ⟨u, hu1, hu2, hu3⟩ := hall
          obtain ⟨c1, c2, c3⟩ := calculateMinEnviromentSize_break m L
            ⟨u, hu1, hu2, hu3⟩
          by_contra hcon
          push_neg at hcon
          have hle : (2 : ℕ) ^ calculateMinEnviromentSize m L ≤
              2 ^ (L / 2) :=
            Nat.pow_le_pow_right (by norm_num) (by omega)
          omega
      have h1 : L < L / 2 + calculateMinEnviromentSize m L := by omega
      have h2 : L < 2 * calculateMinEnviromentSize m L := by omega
      have hfro := fsaPhase_frozen m L n (isaRun m L) h1 h2
      rw [progRun, hfro.1, isaRun_truncFSA]
      intro p hp
      simp at hp
    · push_neg at hcase
      have hsis := isaRun_sis m L (by omega)
      obtain ⟨hb, _⟩ := hisa
      have hdim : (isaRun m L).dimSuper = 2 * m := by
        rcases hb with ⟨_, hst, _, hle, _⟩ | ⟨_, _, _, hds, _⟩
        · exfalso
          rw [hsis] at hst
          have hpow : (isaRun m L).st = 2 ^ (L / 2) := by
            rw [hst, Nat.add_sub_cancel]
          omega
        · exact hds
      obtain ⟨k, hk⟩ := fsaPhase_truncFSA m L n (isaRun m L)
      intro p hp
      rw [progRun, hk, isaRun_truncFSA, List.nil_append] at hp
      rw [List.eq_of_mem_replicate hp]
      show m ≤ (isaRun m L).dimSuper
      rw [hdim]
      omega

theorem truncation_request_le_dim_witness :
    ((2, 4) : ℕ × ℕ) ∈ (progRun 2 8 1).truncISA ∧ (2 : ℕ) ≤ 4 :=
  ⟨by decide, (truncation_request_le_dim 2 8 1 (by decide) (by decide)
    (by decide)).1 (2, 4) (by decide)⟩

/-- C7: when no r with 3 ≤ r < L satisfies 2^r ≥ 2m, the
minEnviromentSize loop runs off the end (returning max 3 L) and the
finite-sweep inner while loop performs zero iterations in every half
sweep: the run produces no finite-sweep output lines and no
finite-sweep truncation, and the (total) model still returns a final
state, i.e. the run is degenerate but non-fatal. -/
theorem degenerate_sweep_zero_iters (m L n : ℕ)
    (h : ∀ r, r < L → 3 ≤ r → 2 ^ r < 2 * m) :
    (progRun m L n).fsaInnerIters = 0 ∧
    (progRun m L n).printsFSA = [] ∧
    (progRun m L n).truncFSA = [] := by
  have hme := calculateMinEnviromentSize_noBreak m L
    (fun u hu1 hu2 => h u hu2 hu1)
  have h1 : L < L / 2 + calculateMinEnviromentSize m L := by
    rw [hme]
    omega
  have h2 : L < 2 * calculateMinEnviromentSize m L := by
    rw [hme]
    omega
  have hfro := fsaPhase_frozen m L n (isaRun m L) h1 h2
  refine ⟨?_, ?_, ?_⟩
  · rw [progRun, hfro.2.2, isaRun_fsaInnerIters]
  · rw [progRun, hfro.2.1, isaRun_printsFSA]
  · rw [progRun, hfro.1, isaRun_truncFSA]

theorem degenerate_sweep_zero_iters_witness :
    (∀ r, r < 4 → 3 ≤ r → 2 ^ r < 2 * 100) ∧
    (progRun 100 4 2).fsaInnerIters = 0 :=
  ⟨by decide, (degenerate_sweep_zero_iters 100 4 2 (by decide)).1⟩

/-- C8: with numberOfHalfSweeps = 0 the finite-sweep phase adds only
the unconditional FSAread of line 244 to the event trace and performs
no block-store write: the write events of the whole run are exactly
the write events of the infinite-system phase, so the persisted block
state is the one produced by the last ISAwrite. -/
theorem zero_halfsweeps_no_writes (m L : ℕ) :
    (progRun m L 0).events =
      (isaRun m L).events ++ [Event.fsaR (L / 2) 1] ∧
    (progRun m L 0).events.filter Event.isWrite =
      (isaRun m L).events.filter Event.isWrite := by
  have h1 : (progRun m L 0).events =
      (isaRun m L).events ++ [Event.fsaR (L / 2) 1] := rfl
  refine ⟨h1, ?_⟩
  rw [h1, List.filter_append]
  simp [Event.isWrite]

/-- C9: over any run (any m, L, sweep count) the values taken by
truncflag are a prefix of 0,1,2,3,4: every value is at most 4, each
transition increments it by exactly one, the sequence is monotone,
and once it reaches 4 it stays at 4 — five reachable states. -/
theorem truncflag_five_states (m L n : ℕ) :
    (∀ v ∈ (progRun m L n).tfTrace, v ≤ 4) ∧
    List.Chain' (fun a b => b = a + 1) (progRun m L n).tfTrace ∧
    (∀ i j : Fin (progRun m L n).tfTrace.length, i ≤ j →
      (progRun m L n).tfTrace.get i ≤ (progRun m L n).tfTrace.get j) ∧
    (∀ i j : Fin (progRun m L n).tfTrace.length, i ≤ j →
      (progRun m L n).tfTrace.get i = 4 →
      (progRun m L n).tfTrace.get j = 4) := by
  have heq : (progRun m L n).tfTrace = (isaRun m L).tfTrace :=
    (fsaPhase_untouched m L n (isaRun m L)).2.1
  have hcases : (progRun m L n).tfTrace = [0] ∨
      (progRun m L n).tfTrace = [0, 1, 2, 3] ∨
      (progRun m L n).tfTrace = [0, 1, 2, 3, 4] := by
    rcases tfInv_isaRun m L with ⟨_, htr⟩ | ⟨_, htr, _⟩ | ⟨_, htr, _⟩
    · exact Or.inl (heq.trans htr)
    · exact Or.inr (Or.inl (heq.trans htr))
    · exact Or.inr (Or.inr (heq.trans htr))
  rcases hcases with h | h | h <;> rw [h] <;>
    exact ⟨by decide, by norm_num [List.chain'_cons], by decide, by decide⟩

theorem truncflag_five_states_witness :
    (0 : ℕ) ∈ (progRun 2 8 1).tfTrace ∧ (0 : ℕ) ≤ 4 :=
  ⟨by decide, (truncflag_five_states 2 8 1).1 0 (by decide)⟩

/-- C10: for every input, including zero half sweeps, the event trace
of the run is the infinite-phase trace (consisting solely of ISAwrite
events: the infinite phase performs no block-store read and no write
keyed by a sweep index) followed first by the single read
blkS.FSAread(L/2, 1) of line 244, before any half sweep has run;
hence the store serves a read keyed by sweep index 1 that no
finite-sweep write produced. -/
theorem initial_fsaread_sweep_one (m L n : ℕ) :
    ∃ rest, (progRun m L n).events =
      (isaRun m L).events ++ Event.fsaR (L / 2) 1 :: rest ∧
      (∀ e ∈ (isaRun m L).events, ∃ sz, e = Event.isaW sz) := by
  obtain ⟨t, ht⟩ := fsaPhase_events m L n (isaRun m L)
  exact ⟨t, ht, isaRun_events_isaW m L⟩

end HeisFSA
